import Mathlib

/-!
# Verification of the smry2parquet conversion pipeline

Shallow embedding of the repository's core logic:

* `smry2parquet.py` : `_load_smry_into_table` — direct construction of a
  pyarrow table from an `EclSum` reader (`buildDirect` below).
* `smry2parquet_via_dframe.py` : `_load_smry_into_table` — construction via a
  pandas dataframe (`buildViaDframe` below), together with its helpers
  `_set_date_column_type_to_timestamp_ms`, `_create_float_downcasting_schema`
  and `_set_metadata_per_field`.
* `concat_parquet.py` : `read_and_build_table_for_one_real` (the "REAL"
  tagging step, `tagTableWithReal` below) and the concatenation call
  `pa.concat_tables(table_list, promote=True)` (`concatTables` below).

External library surfaces (pyarrow's `pa.table`, `Table.add_column`,
`pa.concat_tables(promote=True)`, the pandas timestamp range) are embedded
from their documented behaviour, since the repository's code consists of
calls into them.  The `EclSum` reader is embedded as an abstract record of
the data the code extracts from it.

Machine floats are embedded as rationals: the float64 → float32 cast that
pyarrow performs when the supplied schema demands `float32` is embedded as
round-to-nearest-even onto the dyadic rationals with a 24-bit significand
(`roundF32`), which is exactly what the cast does for finite values in the
normal range.
-/

namespace SmryPq

/-- Arrow data types that occur in the pipeline. -/
inductive DType where
  | timestampMs
  | timestampNs
  | float32
  | float64
  | int64
  deriving DecidableEq, Repr

/-- Per-column summary metadata record, as built by `_create_smry_meta_dict`
(identical code in both conversion variants): unit, is_total, is_rate,
is_historical, keyword, wgname, and the optional `get_num` qualifier. -/
structure ColMeta where
  unit : String
  is_total : Bool
  is_rate : Bool
  is_historical : Bool
  keyword : String
  wgname : String
  get_num : Option Int
  deriving DecidableEq, Repr

/-- A cell of a materialized column: a millisecond timestamp, a 64-bit
integer, a 32-bit float value (held exactly as a rational), or null. -/
inductive Cell where
  | timestamp (ms : Int)
  | int64 (v : Int)
  | f32 (v : ℚ)
  | null
  deriving DecidableEq, Repr

/-- A schema field: name, data type, optional serialized `smry_meta` blob.
The JSON serialization is injective on the records involved, so the blob is
embedded as the `ColMeta` record itself. -/
structure Field where
  name : String
  dtype : DType
  meta : Option ColMeta
  deriving DecidableEq, Repr

/-- An Arrow schema: an ordered list of fields plus optional schema-level
(table-level) metadata; the only schema-level key the code ever writes is
`smry_meta`, whose value serializes a map from column name to `ColMeta`,
embedded here as an association list. -/
structure Schema where
  fields : List Field
  metadata : Option (List (String × ColMeta))
  deriving DecidableEq, Repr

/-- An Arrow table: a schema and one materialized column per field. -/
structure Table where
  schema : Schema
  cols : List (List Cell)
  deriving DecidableEq, Repr

/-- Errors surfaced by the embedded operations, named as in the spec:
`decodeError` for inconsistent source data (pyarrow's length/arity check in
`pa.table`), `schemaConflictError` for a type conflict during concatenation,
`emptyInputError` for concatenating zero tables, and `pandasOutOfBounds` for
the pandas datetime-range failure documented in
`smry2parquet_via_dframe.py` (timestamps beyond 2262). -/
inductive Err where
  | decodeError
  | schemaConflictError
  | emptyInputError
  | pandasOutOfBounds
  deriving DecidableEq, Repr

/-! ## Embedding of the float64 → float32 cast

All arithmetic below is on numerators/denominators directly, so that the
definitions evaluate by kernel reduction on concrete inputs. -/

/-- `⌊log₂ n⌋` for `n ≥ 1` (and `0` for `n = 0`), by fuelled halving; the
fuel `n` itself always suffices. -/
def log2fuel : Nat → Nat → Nat
  | 0, _ => 0
  | fuel + 1, n => if n ≤ 1 then 0 else log2fuel fuel (n / 2) + 1

/-- `⌊log₂ n⌋` for `n ≥ 1`. -/
def floorLog2 (n : Nat) : Nat := log2fuel n n

/-- The binary exponent of a positive rational `q = n / d` (in lowest
terms): the unique `e : ℤ` with `2 ^ e ≤ q < 2 ^ (e + 1)`.  For `q ≥ 1`
(i.e. `d ≤ n`) it is `⌊log₂ ⌊q⌋⌋`; for `q < 1` it is `-L - 1` where
`L = ⌊log₂ (1/q)⌋`, except when `q` is exactly `2 ^ (-L)`. -/
def ratIlog2 (q : ℚ) : Int :=
  let n := q.num.natAbs
  let d := q.den
  if d ≤ n then (floorLog2 (n / d) : Int)
  else
    let L := floorLog2 (d / n)
    if d = n * 2 ^ L then -(L : Int) else -(L : Int) - 1

/-- Round the fraction `N / D` (with `D > 0`) to the nearest integer, ties
to even (IEEE-754 default rounding). -/
def roundPair (N D : Int) : Int :=
  let fl := Int.fdiv N D
  let r := N - fl * D
  if 2 * r < D then fl
  else if D < 2 * r then fl + 1
  else if fl % 2 = 0 then fl else fl + 1

/-- The float64 → float32 cast for finite values in the binary32 normal
range, embedded exactly: round to nearest even onto the dyadic rationals
with a 24-bit significand.  `roundF32 q = ± m · 2 ^ (e - 23)` where
`e = ⌊log₂ |q|⌋` and `m` is `|q| · 2 ^ (23 - e)` rounded to the nearest
(ties even) integer. -/
def roundF32 (q : ℚ) : ℚ :=
  if q.num = 0 then 0
  else
    let e := ratIlog2 q
    let p := 23 - e
    let N : Int := (q.num.natAbs * 2 ^ p.toNat : ℕ)
    let D : Int := (q.den * 2 ^ (-p).toNat : ℕ)
    let m := roundPair N D
    let msigned := if q.num < 0 then -m else m
    if 0 ≤ e - 23 then mkRat (msigned * 2 ^ (e - 23).toNat) 1
    else mkRat msigned (2 ^ (23 - e).toNat)

example : roundF32 1 = 1 := by decide
example : roundF32 (mkRat 3 2) = mkRat 3 2 := by decide
example : roundF32 0 = 0 := by decide
example : roundF32 (mkRat 12345678901 1000000000) ≠ mkRat 12345678901 1000000000 := by
  decide
example : roundF32 (mkRat (-3) 2) = mkRat (-3) 2 := by decide
example : roundF32 (mkRat 1 3) = mkRat 11184811 33554432 := by decide

/-! ## The summary reader surface -/

/-- The data the conversion code extracts from an `EclSum` reader:
`keys` is the name enumeration `EclSumKeyWordVector(eclsum, add_keywords=True)`
(which may contain duplicate names, see equinor/ecl issue 816 cited in
`smry2parquet.py`), `datesMs` is `eclsum.numpy_dates` (instants at
millisecond resolution, held as epoch milliseconds), `vecOf` is
`eclsum.numpy_vector` (float64 samples, held exactly as rationals), and
`metaOf` collects the per-name metadata calls made by
`_create_smry_meta_dict`. -/
structure SmryReader where
  keys : List String
  datesMs : List Int
  vecOf : String → List ℚ
  metaOf : String → ColMeta

/-- `_create_smry_meta_dict` (identical in both variants): the dictionary
from column name to its metadata record, in the iteration order of the
given names; `smry_meta[col_name]` is the record assembled from the
reader's `unit`/`is_total`/`is_rate`/`smspec_node` calls, i.e.
`r.metaOf col_name` here. -/
def createSmryMetaDict (r : SmryReader) (columnNames : List String) :
    List (String × ColMeta) :=
  columnNames.map fun n => (n, r.metaOf n)

/-! ## pyarrow table construction -/

/-- `pa.table(column_arrays, schema=schema)`: pyarrow validates that the
number of arrays matches the number of schema fields and that all arrays
have one common length, raising `ArrowInvalid` otherwise — surfaced here
as the spec's `DecodeError` (inconsistent source data). -/
def paTable (arrays : List (List Cell)) (schema : Schema) : Except Err Table :=
  if arrays.length = schema.fields.length ∧
      ∀ a ∈ arrays, a.length = (arrays.headD []).length then
    .ok ⟨schema, arrays⟩
  else .error .decodeError

/-! ## The direct conversion variant (`smry2parquet.py`) -/

/-- `_load_smry_into_table` from `smry2parquet.py`: DATE field typed
timestamp[ms] and populated from `eclsum.numpy_dates` (already epoch-ms
numerics), every other field typed float32 with the serialized
`smry_meta` record attached, data cast to float32 by `pa.table` against
that schema.  No table-level metadata is attached (`pa.schema(field_list)`
carries none).

The Python code draws its column names from
`set(EclSumKeyWordVector(eclsum, add_keywords=True))`; a CPython `set` of
strings has no iteration order determined by its contents (string hashing
is salted per interpreter run), so the realized iteration order is an
explicit parameter `order` here — see `validOrder`. -/
def buildDirect (r : SmryReader) (order : List String) : Except Err Table :=
  let fieldList : List Field :=
    ⟨"DATE", .timestampMs, none⟩ ::
      order.map fun n => ⟨n, .float32, some (r.metaOf n)⟩
  let schema : Schema := ⟨fieldList, none⟩
  let columnArrays : List (List Cell) :=
    r.datesMs.map Cell.timestamp ::
      order.map fun n => (r.vecOf n).map fun v => Cell.f32 (roundF32 v)
  paTable columnArrays schema

/-- `order` is a possible iteration order of `set(r.keys)`: duplicate-free
and containing exactly the names that occur in `keys`. -/
def validOrder (r : SmryReader) (order : List String) : Prop :=
  order.Nodup ∧ (∀ n ∈ order, n ∈ r.keys) ∧ ∀ n ∈ r.keys, n ∈ order

/-! ## The dataframe conversion variant (`smry2parquet_via_dframe.py`) -/

/-- `_set_date_column_type_to_timestamp_ms`: rebuilds the schema from its
(name, type) pairs with the DATE column's type set to timestamp[ms].
Rebuilding through `pa.schema(zip(names, types))` keeps neither field
metadata nor schema metadata (none is present at the point of use). -/
def setDateColumnTypeToTimestampMs (s : Schema) : Schema :=
  ⟨s.fields.map fun f =>
      ⟨f.name, if f.name = "DATE" then .timestampMs else f.dtype, none⟩,
    none⟩

/-- `_create_float_downcasting_schema`: rebuilds the schema from its
(name, type) pairs with every float64 replaced by float32. -/
def createFloatDowncastingSchema (s : Schema) : Schema :=
  ⟨s.fields.map fun f =>
      ⟨f.name, if f.dtype = .float64 then .float32 else f.dtype, none⟩,
    none⟩

/-- `_set_metadata_per_field`: attaches the serialized metadata record to
every field whose name occurs in the dictionary; other fields are kept
as they are. -/
def setMetadataPerField (s : Schema) (d : List (String × ColMeta)) : Schema :=
  ⟨s.fields.map fun f =>
      match d.lookup f.name with
      | some m => ⟨f.name, f.dtype, some m⟩
      | none => f,
    none⟩

/-- `Table.replace_schema_metadata`: new table with the table-level
metadata replaced, fields and data kept. -/
def replaceSchemaMetadata (t : Table) (m : Option (List (String × ColMeta))) :
    Table :=
  ⟨⟨t.schema.fields, m⟩, t.cols⟩

/-- The maximum pandas `datetime64[ns]` value in nanoseconds (Int64 max). -/
def pandasMaxNs : Int := 9223372036854775807

/-- Whether an epoch-millisecond instant is representable as a pandas
nanosecond timestamp.  `EclSum.pandas_frame()` materializes dates through
pandas `datetime64[ns]` and fails for instants outside this range
(timestamps beyond the year 2262 — equinor/ecl issue 802, cited in both
source variants). -/
def pandasInRange (ms : Int) : Bool :=
  decide (-pandasMaxNs - 1 ≤ ms * 1000000) && decide (ms * 1000000 ≤ pandasMaxNs)

/-- `_load_smry_into_table` from `smry2parquet_via_dframe.py`.

`eclsum.pandas_frame()` yields a dataframe whose columns are the reader's
vector names (first-occurrence order) with float64 samples, indexed by
the dates materialized as pandas `datetime64[ns]`; it fails when a date
falls outside the pandas range (the source cites equinor/ecl issue 802).
The code renames the index to DATE and resets it into column 0, derives
the pyarrow schema (DATE : timestamp[ns], samples : float64), rewrites
the DATE type to timestamp[ms], downcasts float64 to float32, attaches
per-field metadata, materializes the table against that schema (samples
cast to float32, dates to millisecond timestamps), and finally replaces
the table-level metadata with the serialized `smry_meta` dictionary. -/
def buildViaDframe (r : SmryReader) : Except Err Table :=
  if r.datesMs.all pandasInRange then
    let columnNames := r.keys.dedup
    let schema0 : Schema :=
      ⟨⟨"DATE", .timestampNs, none⟩ ::
          columnNames.map (fun n => ⟨n, .float64, none⟩),
        none⟩
    let schema1 := setDateColumnTypeToTimestampMs schema0
    let schema2 := createFloatDowncastingSchema schema1
    let smryMetaDict := createSmryMetaDict r columnNames
    let schema3 := setMetadataPerField schema2 smryMetaDict
    let columnArrays : List (List Cell) :=
      r.datesMs.map Cell.timestamp ::
        columnNames.map fun n => (r.vecOf n).map fun v => Cell.f32 (roundF32 v)
    match paTable columnArrays schema3 with
    | .ok t => .ok (replaceSchemaMetadata t (some smryMetaDict))
    | .error e => .error e
  else .error .pandasOutOfBounds

/-! ## Realization tagging (`concat_parquet.py`) -/

/-- `Table.num_rows`. -/
def Table.numRows (t : Table) : Nat := (t.cols.headD []).length

/-- `Table.add_column(i, field, column)`: a **new** table with the field
and column inserted at position `i`; pyarrow performs no duplicate-name
check. -/
def addColumn (t : Table) (i : Nat) (f : Field) (c : List Cell) : Table :=
  ⟨⟨t.schema.fields.insertIdx i f, t.schema.metadata⟩, t.cols.insertIdx i c⟩

/-- The REAL-tagging step of `read_and_build_table_for_one_real`:
`table.add_column(1, "REAL", pa.array(np.full(table.num_rows, entry.real)))`.
`np.full` on a Python int produces an int64 array, so the inserted column
has Arrow type int64 and carries no field metadata. -/
def tagTableWithReal (t : Table) (real : Int) : Table :=
  addColumn t 1 ⟨"REAL", .int64, none⟩
    (List.replicate t.numRows (Cell.int64 real))

/-! ## Concatenation (`pa.concat_tables(table_list, promote=True)`) -/

/-- Find a field by name (first match, as pyarrow resolves names). -/
def findField (fs : List Field) (n : String) : Option Field :=
  fs.find? fun f => f.name == n

/-- Schema unification performed by `pa.concat_tables(..., promote=True)`:
fields are collected by name in first-seen order across the inputs; a
later occurrence of an already-seen name must carry the identical declared
type (the first-seen field, with its metadata, is kept), otherwise the
concatenation fails — surfaced as the spec's `SchemaConflictError`. -/
def unifyFields (acc : List Field) : List Field → Except Err (List Field)
  | [] => .ok acc
  | f :: rest =>
    match findField acc f.name with
    | none => unifyFields (acc ++ [f]) rest
    | some g =>
      if g.dtype = f.dtype then unifyFields acc rest
      else .error .schemaConflictError

/-- Unify the schemas of all input tables, in input order. -/
def unifyAll (ts : List Table) : Except Err (List Field) :=
  ts.foldlM (fun acc t => unifyFields acc t.schema.fields) []

/-- The column of `t` named `n`, if `t` has a field of that name. -/
def colOf (t : Table) (n : String) : Option (List Cell) :=
  (t.schema.fields.findIdx? fun f => f.name == n).bind fun i => t.cols[i]?

/-- The rows a table contributes to a concatenated column named `n`: its
own column when the name is present, one null per row otherwise. -/
def colOrNulls (t : Table) (n : String) : List Cell :=
  (colOf t n).getD (List.replicate t.numRows Cell.null)

/-- `pa.concat_tables(table_list, promote=True)`: fails on an empty input
list; otherwise unifies the schemas (first-seen field order, type
conflicts fatal) and stacks the tables' rows in input order, columns
missing from a table contributing nulls for that table's rows.  The
resulting schema inherits the table-level metadata of the first input. -/
def concatTables (ts : List Table) : Except Err Table :=
  match ts with
  | [] => .error .emptyInputError
  | t0 :: _ =>
    match unifyAll ts with
    | .error e => .error e
    | .ok fields =>
      .ok ⟨⟨fields, t0.schema.metadata⟩,
        fields.map fun f => (ts.map fun t => colOrNulls t f.name).flatten⟩

/-- Well-formed table: one column per schema field, all columns of one
common length. -/
def wfTable (t : Table) : Prop :=
  t.cols.length = t.schema.fields.length ∧ ∀ c ∈ t.cols, c.length = t.numRows

instance (a b : Except Err Table) : Decidable (a = b) :=
  match a, b with
  | .error e, .error e' => decidable_of_iff (e = e') (by simp)
  | .ok t, .ok t' => decidable_of_iff (t = t') (by simp)
  | .error _, .ok _ => isFalse (by simp)
  | .ok _, .error _ => isFalse (by simp)

instance (r : SmryReader) (order : List String) :
    Decidable (validOrder r order) := by
  unfold validOrder
  infer_instance

instance (t : Table) : Decidable (wfTable t) := by
  unfold wfTable
  infer_instance

/-- Number of schema fields named "REAL". -/
def countRealFields (t : Table) : Nat :=
  (t.schema.fields.filter fun f => f.name == "REAL").length

/-! ## Concrete fixtures -/

/-- A rate-vector metadata record. -/
def metaFOPR : ColMeta := ⟨"SM3/DAY", false, true, false, "FOPR", "FIELD", none⟩

/-- A total-vector metadata record with a numeric qualifier. -/
def metaFGPT : ColMeta := ⟨"SM3", true, false, false, "FGPT", "FIELD", some 5⟩

/-- A two-vector, two-date reader. -/
def readerAB : SmryReader :=
  ⟨["FOPR", "FGPT"], [0, 86400000],
   fun n => if n = "FOPR" then [1, mkRat 1 3] else [2, 3],
   fun n => if n = "FOPR" then metaFOPR else metaFGPT⟩

/-- A reader whose single date lies far beyond the pandas
`datetime64[ns]` range (about year 1.27 million). -/
def readerFar : SmryReader :=
  ⟨["FOPR"], [40000000000000000], fun _ => [1], fun _ => metaFOPR⟩

/-- A reader whose sample vector length (0) disagrees with its timestamp
count (1). -/
def readerBad : SmryReader :=
  ⟨["A"], [0], fun _ => [], fun _ => metaFOPR⟩

/-- The table `buildDirect` produces from `readerAB` with iteration order
FOPR, FGPT: per-field metadata only, no table-level blob. -/
def tblABdirect : Table :=
  ⟨⟨[⟨"DATE", .timestampMs, none⟩, ⟨"FOPR", .float32, some metaFOPR⟩,
     ⟨"FGPT", .float32, some metaFGPT⟩], none⟩,
   [[Cell.timestamp 0, Cell.timestamp 86400000],
    [Cell.f32 1, Cell.f32 (mkRat 11184811 33554432)],
    [Cell.f32 2, Cell.f32 3]]⟩

/-- The table `buildDirect` produces from `readerAB` with the opposite
iteration order FGPT, FOPR. -/
def tblBAdirect : Table :=
  ⟨⟨[⟨"DATE", .timestampMs, none⟩, ⟨"FGPT", .float32, some metaFGPT⟩,
     ⟨"FOPR", .float32, some metaFOPR⟩], none⟩,
   [[Cell.timestamp 0, Cell.timestamp 86400000],
    [Cell.f32 2, Cell.f32 3],
    [Cell.f32 1, Cell.f32 (mkRat 11184811 33554432)]]⟩

/-- The table `buildViaDframe` produces from `readerAB`: same fields and
data, plus the table-level `smry_meta` blob. -/
def tblABvia : Table :=
  ⟨⟨[⟨"DATE", .timestampMs, none⟩, ⟨"FOPR", .float32, some metaFOPR⟩,
     ⟨"FGPT", .float32, some metaFGPT⟩],
    some [("FOPR", metaFOPR), ("FGPT", metaFGPT)]⟩,
   [[Cell.timestamp 0, Cell.timestamp 86400000],
    [Cell.f32 1, Cell.f32 (mkRat 11184811 33554432)],
    [Cell.f32 2, Cell.f32 3]]⟩

/-- A one-row table with columns DATE, FOPR. -/
def tblA : Table :=
  ⟨⟨[⟨"DATE", .timestampMs, none⟩, ⟨"FOPR", .float32, some metaFOPR⟩], none⟩,
   [[Cell.timestamp 0], [Cell.f32 1]]⟩

/-- A two-row table with columns DATE, FGPR. -/
def tblB : Table :=
  ⟨⟨[⟨"DATE", .timestampMs, none⟩, ⟨"FGPR", .float32, none⟩], none⟩,
   [[Cell.timestamp 5, Cell.timestamp 6], [Cell.f32 2, Cell.f32 3]]⟩

/-- A table declaring FOPR as int64, conflicting with `tblA`. -/
def tblC : Table :=
  ⟨⟨[⟨"DATE", .timestampMs, none⟩, ⟨"FOPR", .int64, none⟩], none⟩,
   [[Cell.timestamp 0], [Cell.int64 1]]⟩

/-! ## C7: the REAL-tagging operation -/

/-- C7: for every table (with its date column in place) and non-negative
integer `real`, tagging returns a new table with a column named "REAL"
inserted at position 1 (immediately after the date column), of integer
type and with no field metadata, whose value is `real` in every row; the
operation is pure — the input table is untouched and is recoverable from
the result by deleting position 1. -/
theorem tag_real_column_spec (t : Table) (real : Int) (hreal : 0 ≤ real)
    (hdate : 1 ≤ t.schema.fields.length) (hwf : wfTable t) :
    (tagTableWithReal t real).schema.fields[1]? =
      some ⟨"REAL", DType.int64, none⟩ ∧
    (tagTableWithReal t real).schema.fields[0]? = t.schema.fields[0]? ∧
    (∀ k : Nat, (tagTableWithReal t real).schema.fields[k + 2]? =
      t.schema.fields[k + 1]?) ∧
    (tagTableWithReal t real).cols[1]? =
      some (List.replicate t.numRows (Cell.int64 real)) ∧
    (∀ j, j < t.numRows → ∀ cl, (tagTableWithReal t real).cols[1]? = some cl →
      cl[j]? = some (Cell.int64 real)) ∧
    wfTable (tagTableWithReal t real) ∧
    (tagTableWithReal t real).schema.fields.eraseIdx 1 = t.schema.fields ∧
    (tagTableWithReal t real).cols.eraseIdx 1 = t.cols := by
  obtain ⟨⟨fields, tmeta⟩, cols⟩ := t
  obtain ⟨hlen, hrows⟩ := hwf
  rcases fields with _ | ⟨f0, fs⟩
  · simp at hdate
  rcases cols with _ | ⟨c0, cs⟩
  · simp at hlen
  simp only [tagTableWithReal, addColumn, Table.numRows, List.insertIdx_succ_cons,
    List.insertIdx_zero, List.headD_cons] at *
  refine ⟨by simp, by simp, fun k => by simp, by simp, ?_,
    ⟨(by simpa using hlen), ?_⟩, by simp [List.eraseIdx], by simp [List.eraseIdx]⟩
  · intro j hj cl hc
    obtain rfl : cl = List.replicate c0.length (Cell.int64 real) := by
      simpa using hc.symm
    simp [List.getElem?_replicate, hj]
  · intro cl hc
    simp only [List.mem_cons] at hc
    rcases hc with rfl | rfl | hc
    · rfl
    · simp [Table.numRows]
    · exact hrows cl (by simp [hc])

/-- Witness for C7 at `tblA`, `real = 7`. -/
theorem tag_real_column_spec_witness :
    (0 : Int) ≤ 7 ∧ 1 ≤ tblA.schema.fields.length ∧ wfTable tblA ∧
    (tagTableWithReal tblA 7).schema.fields[1]? =
      some ⟨"REAL", DType.int64, none⟩ := by
  refine ⟨by decide, by decide, by decide, ?_⟩
  exact (tag_real_column_spec tblA 7 (by decide) (by decide) (by decide)).1

/-! ## C8: tagging twice -/

/-- C8 counterexample: tagging `tblA` twice with the same realization
index is not rejected and yields a table with **two** "REAL" columns,
different from the result of tagging once — refuting the claim that the
result has exactly one "REAL" column and never duplicates. -/
theorem tag_twice_not_single_real :
    countRealFields (tagTableWithReal (tagTableWithReal tblA 0) 0) = 2 ∧
    tagTableWithReal (tagTableWithReal tblA 0) 0 ≠ tagTableWithReal tblA 0 := by
  decide

/-- C8 as amended: the tagging operation performs no duplicate check.
Tagging a table that has no "REAL" column yields exactly one; tagging
twice yields exactly two duplicate "REAL" columns. -/
theorem tag_counts_real_columns (t : Table) (real : Int)
    (hno : countRealFields t = 0) (hdate : 1 ≤ t.schema.fields.length) :
    countRealFields (tagTableWithReal t real) = 1 ∧
    countRealFields (tagTableWithReal (tagTableWithReal t real) real) = 2 := by
  obtain ⟨⟨fields, tmeta⟩, cols⟩ := t
  rcases fields with _ | ⟨f0, fs⟩
  · simp at hdate
  simp only [countRealFields, tagTableWithReal, addColumn,
    List.insertIdx_succ_cons, List.insertIdx_zero, List.filter_cons] at hno ⊢
  by_cases hf : (f0.name == "REAL") = true
  · rw [if_pos hf] at hno
    simp at hno
  · have hf' : (f0.name == "REAL") = false := by simpa using hf
    simp only [hf', Bool.false_eq_true, if_false] at hno ⊢
    simp_all

/-- Witness for the amended C8 at `tblA`, `real = 3`. -/
theorem tag_counts_real_columns_witness :
    countRealFields tblA = 0 ∧ 1 ≤ tblA.schema.fields.length ∧
    countRealFields (tagTableWithReal tblA 3) = 1 := by
  refine ⟨by decide, by decide, ?_⟩
  exact (tag_counts_real_columns tblA 3 (by decide) (by decide)).1

/-! ## C5: length-mismatch rejection -/

/-- C5: whenever the timestamp count disagrees with the length of any
sample vector the builder selects, `buildDirect` fails with the
decode error and produces no table (the length check `pa.table` performs
against the supplied schema). -/
theorem buildDirect_rejects_length_mismatch (r : SmryReader)
    (order : List String)
    (h : ∃ n ∈ order, (r.vecOf n).length ≠ r.datesMs.length) :
    buildDirect r order = .error .decodeError := by
  obtain ⟨n, hn, hne⟩ := h
  unfold buildDirect paTable
  rw [if_neg]
  rintro ⟨-, hall⟩
  have hmem : ((r.vecOf n).map fun v => Cell.f32 (roundF32 v)) ∈
      (r.datesMs.map Cell.timestamp ::
        order.map fun m => (r.vecOf m).map fun v => Cell.f32 (roundF32 v)) :=
    List.mem_cons_of_mem _ (List.mem_map_of_mem _ hn)
  have := hall _ hmem
  simp only [List.headD_cons, List.length_map] at this
  exact hne this

/-- Witness for C5 at `readerBad` (vector length 0, timestamp count 1). -/
theorem buildDirect_rejects_length_mismatch_witness :
    (∃ n ∈ ["A"], (readerBad.vecOf n).length ≠ readerBad.datesMs.length) ∧
    buildDirect readerBad ["A"] = .error .decodeError := by
  refine ⟨⟨"A", by decide, by decide⟩, ?_⟩
  exact buildDirect_rejects_length_mismatch readerBad ["A"]
    ⟨"A", by decide, by decide⟩

/-! ## Shape lemmas for the two builders -/

/-- `pa.table` hands back exactly the supplied schema and arrays on
success. -/
lemma paTable_ok (arrays : List (List Cell)) (schema : Schema) (t : Table)
    (h : paTable arrays schema = .ok t) : t = ⟨schema, arrays⟩ := by
  unfold paTable at h
  split at h
  · simpa using h.symm
  · cases h

/-- A successful `buildDirect` yields exactly the table assembled from the
DATE field plus one float32 field per ordered name. -/
lemma buildDirect_ok_shape (r : SmryReader) (order : List String) (t : Table)
    (hb : buildDirect r order = .ok t) :
    t = ⟨⟨⟨"DATE", DType.timestampMs, none⟩ ::
          order.map fun n => ⟨n, DType.float32, some (r.metaOf n)⟩, none⟩,
        r.datesMs.map Cell.timestamp ::
          order.map fun n => (r.vecOf n).map fun v => Cell.f32 (roundF32 v)⟩ := by
  simp only [buildDirect] at hb
  exact paTable_ok _ _ _ hb

/-- A successful `buildViaDframe` yields the table whose schema runs
through the three schema-rewriting helpers and whose table-level metadata
is the serialized `smry_meta` dictionary. -/
lemma buildViaDframe_ok_shape (r : SmryReader) (t : Table)
    (hb : buildViaDframe r = .ok t) :
    t.schema.metadata = some (createSmryMetaDict r r.keys.dedup) ∧
    t.schema.fields = (setMetadataPerField (createFloatDowncastingSchema
      (setDateColumnTypeToTimestampMs ⟨⟨"DATE", DType.timestampNs, none⟩ ::
        (r.keys.dedup).map fun n => ⟨n, DType.float64, none⟩, none⟩))
      (createSmryMetaDict r r.keys.dedup)).fields ∧
    t.cols = r.datesMs.map Cell.timestamp ::
      (r.keys.dedup).map fun n => (r.vecOf n).map fun v => Cell.f32 (roundF32 v) := by
  simp only [buildViaDframe] at hb
  split at hb
  · split at hb
    next t' heq =>
      obtain rfl := paTable_ok _ _ _ heq
      simp only [Except.ok.injEq] at hb
      subst hb
      exact ⟨rfl, rfl, rfl⟩
    next e heq => cases hb
  · cases hb

/-- `List.lookup` on the metadata dictionary: a listed name resolves to
its record. -/
lemma lookup_createSmryMetaDict_mem (r : SmryReader) (names : List String)
    (n : String) (hn : n ∈ names) :
    (createSmryMetaDict r names).lookup n = some (r.metaOf n) := by
  induction names with
  | nil => cases hn
  | cons a l ih =>
    simp only [createSmryMetaDict, List.map_cons, List.lookup]
    by_cases h : n = a
    · subst h
      simp
    · have hb : (n == a) = false := by simpa using h
      rw [hb]
      exact ih (by simpa [h] using hn)

/-- `List.lookup` on the metadata dictionary: an unlisted name resolves to
nothing. -/
lemma lookup_createSmryMetaDict_not_mem (r : SmryReader) (names : List String)
    (n : String) (hn : n ∉ names) :
    (createSmryMetaDict r names).lookup n = none := by
  induction names with
  | nil => rfl
  | cons a l ih =>
    simp only [createSmryMetaDict, List.map_cons, List.lookup]
    have h : ¬n = a := fun h => hn (by simp [h])
    have hb : (n == a) = false := by simpa using h
    rw [hb]
    exact ih fun h => hn (List.mem_cons_of_mem _ h)

/-- Under the reserved-name convention (no reader vector is called DATE),
the dataframe variant's schema pipeline produces the DATE timestamp field
followed by one float32 field per deduplicated name, each carrying its
metadata record. -/
lemma viaDframe_fields_closed (r : SmryReader) (hd : "DATE" ∉ r.keys) :
    (setMetadataPerField (createFloatDowncastingSchema
      (setDateColumnTypeToTimestampMs ⟨⟨"DATE", DType.timestampNs, none⟩ ::
        (r.keys.dedup).map fun n => ⟨n, DType.float64, none⟩, none⟩))
      (createSmryMetaDict r r.keys.dedup)).fields =
    ⟨"DATE", DType.timestampMs, none⟩ ::
      (r.keys.dedup).map fun n => ⟨n, DType.float32, some (r.metaOf n)⟩ := by
  have hd' : "DATE" ∉ r.keys.dedup := fun h => hd (List.mem_dedup.mp h)
  simp only [setDateColumnTypeToTimestampMs, createFloatDowncastingSchema,
    setMetadataPerField, List.map_cons, List.map_map]
  rw [lookup_createSmryMetaDict_not_mem r _ _ hd']
  refine congrArg₂ _ (by simp) ?_
  apply List.map_congr_left
  intro n hn
  have hne : ¬n = "DATE" := fun h => hd' (h ▸ hn)
  simp only [Function.comp]
  rw [if_neg hne]
  simp only [reduceIte]
  rw [lookup_createSmryMetaDict_mem r _ _ hn]

/-- Every field of `setMetadataPerField` keeps the name and type of a
field of the input schema. -/
lemma mem_setMetadataPerField (s : Schema) (d : List (String × ColMeta))
    (f : Field) (hf : f ∈ (setMetadataPerField s d).fields) :
    ∃ g ∈ s.fields, f.name = g.name ∧ f.dtype = g.dtype := by
  simp only [setMetadataPerField, List.mem_map] at hf
  obtain ⟨g, hg, hfg⟩ := hf
  refine ⟨g, hg, ?_⟩
  rcases h : d.lookup g.name with _ | m <;> rw [h] at hfg <;> subst hfg <;>
    exact ⟨rfl, rfl⟩

/-- Every field of `createFloatDowncastingSchema` keeps the name of a
field of the input schema and carries its downcast type. -/
lemma mem_createFloatDowncastingSchema (s : Schema) (f : Field)
    (hf : f ∈ (createFloatDowncastingSchema s).fields) :
    ∃ g ∈ s.fields, f.name = g.name ∧
      f.dtype = if g.dtype = DType.float64 then DType.float32 else g.dtype := by
  simp only [createFloatDowncastingSchema, List.mem_map] at hf
  obtain ⟨g, hg, hfg⟩ := hf
  exact ⟨g, hg, by subst hfg; exact ⟨rfl, rfl⟩⟩

/-- Every field of `setDateColumnTypeToTimestampMs` keeps the name of a
field of the input schema, with the DATE type rewritten. -/
lemma mem_setDateColumnTypeToTimestampMs (s : Schema) (f : Field)
    (hf : f ∈ (setDateColumnTypeToTimestampMs s).fields) :
    ∃ g ∈ s.fields, f.name = g.name ∧
      f.dtype = if g.name = "DATE" then DType.timestampMs else g.dtype := by
  simp only [setDateColumnTypeToTimestampMs, List.mem_map] at hf
  obtain ⟨g, hg, hfg⟩ := hf
  exact ⟨g, hg, by subst hfg; exact ⟨rfl, rfl⟩⟩

/-! ## C4: the float32 precision-reduction policy -/

/-- The spec's precision-scenario sample value, 12345.6789012345. -/
def vPrec : ℚ := mkRat 123456789012345 10000000000

/-- A one-vector reader holding the precision-scenario value. -/
def readerPrec : SmryReader :=
  ⟨["WBHP"], [0], fun _ => [vPrec], fun _ => metaFOPR⟩

/-- The table `buildDirect` produces from `readerPrec`: the stored sample
is the nearest 32-bit float `12641975/1024 = 12345.6787109375`, not the
original value. -/
def tblPrec : Table :=
  ⟨⟨[⟨"DATE", .timestampMs, none⟩, ⟨"WBHP", .float32, some metaFOPR⟩], none⟩,
   [[Cell.timestamp 0], [Cell.f32 (mkRat 12641975 1024)]]⟩

/-- C4: both builder variants type every non-date column as 32-bit float
regardless of the native sample precision, and the spec's precision
scenario holds: the 64-bit sample value 12345.6789012345 stored through
the builder is read back as its nearest 32-bit float representation
(`12641975/1024`, a 24-bit-significand dyadic within half an ulp), not
the original value. -/
theorem builders_downcast_to_float32 :
    (∀ (r : SmryReader) (order : List String) (t : Table),
      buildDirect r order = .ok t →
      ∀ f ∈ t.schema.fields, f.name ≠ "DATE" → f.dtype = DType.float32) ∧
    (∀ (r : SmryReader) (t : Table),
      buildViaDframe r = .ok t →
      ∀ f ∈ t.schema.fields, f.name ≠ "DATE" → f.dtype = DType.float32) ∧
    (buildDirect readerPrec ["WBHP"] = .ok tblPrec ∧
      colOf tblPrec "WBHP" = some [Cell.f32 (mkRat 12641975 1024)] ∧
      roundF32 vPrec = mkRat 12641975 1024 ∧
      mkRat 12641975 1024 ≠ vPrec ∧
      |mkRat 12641975 1024 - vPrec| ≤ mkRat 1 2048 ∧
      (12641975 : Int).natAbs ≤ 2 ^ 24) := by
  refine ⟨?_, ?_, by decide, by decide, by decide, by decide, ?_, by decide⟩
  · intro r order t hb f hf hn
    obtain rfl := buildDirect_ok_shape r order t hb
    simp only [List.mem_cons, List.mem_map] at hf
    rcases hf with rfl | ⟨n, hn', rfl⟩
    · exact absurd rfl hn
    · rfl
  · intro r t hb f hf hn
    obtain ⟨-, hfields, -⟩ := buildViaDframe_ok_shape r t hb
    rw [hfields] at hf
    obtain ⟨g2, hg2, hname2, hdty2⟩ := mem_setMetadataPerField _ _ _ hf
    obtain ⟨g1, hg1, hname1, hdty1⟩ := mem_createFloatDowncastingSchema _ _ hg2
    obtain ⟨g0, hg0, hname0, hdty0⟩ := mem_setDateColumnTypeToTimestampMs _ _ hg1
    simp only [List.mem_cons, List.mem_map] at hg0
    rcases hg0 with rfl | ⟨n, hn', rfl⟩
    · exact absurd (hname2.trans (hname1.trans hname0)) hn
    · by_cases hdn : (n = "DATE")
      · exact absurd ((hname2.trans (hname1.trans hname0)).trans hdn) hn
      · rw [hdty2, hdty1, hdty0]
        simp [hdn]
  · rw [abs_le]
    constructor <;>
      · rw [Rat.mkRat_eq_div, Rat.mkRat_eq_div, vPrec, Rat.mkRat_eq_div]
        norm_num

/-- Witness for C4's universally quantified parts at `readerAB`. -/
theorem builders_downcast_to_float32_witness :
    buildDirect readerAB ["FOPR", "FGPT"] = .ok tblABdirect ∧
    (⟨"FGPT", DType.float32, some metaFGPT⟩ : Field) ∈
      tblABdirect.schema.fields ∧
    (⟨"FGPT", DType.float32, some metaFGPT⟩ : Field).dtype = DType.float32 := by
  refine ⟨by decide, by decide, ?_⟩
  exact builders_downcast_to_float32.1 readerAB ["FOPR", "FGPT"] tblABdirect
    (by decide) _ (by decide) (by decide)

/-! ## C2: timestamp conversion and extreme instants -/

/-- C2 counterexample: `readerFar` holds a single, length-consistent
sample with an instant far beyond the pandas `datetime64[ns]` range
(epoch-ms 40000000000000000, about year 1.27 million).  The dataframe
variant of the builder routes the conversion through the pandas datetime
abstraction and fails on it, producing no table — so it is not the case
that building succeeds and represents every such instant for every
TableBuilder variant. -/
theorem viaDframe_breaks_beyond_pandas_range :
    (∀ n ∈ readerFar.keys,
      (readerFar.vecOf n).length = readerFar.datesMs.length) ∧
    (40000000000000000 : Int) ∈ readerFar.datesMs ∧
    pandasInRange 40000000000000000 = false ∧
    buildViaDframe readerFar = .error .pandasOutOfBounds := by
  decide

/-- C2 as amended (the direct variant): `buildDirect` converts the
reader's epoch-millisecond numerics straight into the DATE column by
numeric arithmetic, with no date-library range restriction: for every
length-consistent input, whatever the instants, building succeeds and
the DATE column holds exactly the input epoch-millisecond sequence at
millisecond timestamp type. -/
theorem buildDirect_dates_numeric_unrestricted (r : SmryReader)
    (order : List String)
    (hlen : ∀ n ∈ order, (r.vecOf n).length = r.datesMs.length) :
    ∃ t, buildDirect r order = .ok t ∧
      t.cols[(0 : Nat)]? = some (r.datesMs.map Cell.timestamp) ∧
      t.schema.fields[(0 : Nat)]? = some ⟨"DATE", DType.timestampMs, none⟩ := by
  refine ⟨⟨⟨⟨"DATE", DType.timestampMs, none⟩ ::
      order.map fun n => ⟨n, DType.float32, some (r.metaOf n)⟩, none⟩,
    r.datesMs.map Cell.timestamp ::
      order.map fun n => (r.vecOf n).map fun v => Cell.f32 (roundF32 v)⟩,
    ?_, by simp, by simp⟩
  simp only [buildDirect, paTable]
  rw [if_pos]
  constructor
  · simp
  · intro a ha
    simp only [List.headD_cons, List.length_map]
    simp only [List.mem_cons, List.mem_map] at ha
    rcases ha with rfl | ⟨n, hn, rfl⟩
    · simp
    · simp [hlen n hn]

/-- Witness for the amended C2, at the far-future reader `readerFar`. -/
theorem buildDirect_dates_numeric_unrestricted_witness :
    (∀ n ∈ ["FOPR"], (readerFar.vecOf n).length = readerFar.datesMs.length) ∧
    ∃ t, buildDirect readerFar ["FOPR"] = .ok t ∧
      t.cols[(0 : Nat)]? = some (readerFar.datesMs.map Cell.timestamp) ∧
      t.schema.fields[(0 : Nat)]? = some ⟨"DATE", DType.timestampMs, none⟩ := by
  refine ⟨by decide, ?_⟩
  exact buildDirect_dates_numeric_unrestricted readerFar ["FOPR"] (by decide)

/-! ## C1: the two metadata representations -/

/-- The C1 property of a table: a table-level blob is attached; it maps
every non-date column name to exactly that column's per-column blob; and
every entry of the blob is carried by a matching column — the two
representations describe identical metadata for the identical column
set. -/
def bothMetaPopulatedConsistent (t : Table) : Prop :=
  match t.schema.metadata with
  | none => False
  | some d =>
    (∀ f ∈ t.schema.fields, f.name ≠ "DATE" →
      (d.lookup f.name).isSome ∧ d.lookup f.name = f.meta) ∧
    ∀ nm ∈ d, ∃ f ∈ t.schema.fields, f.name = nm.1 ∧ f.meta = some nm.2

instance (t : Table) : Decidable (bothMetaPopulatedConsistent t) :=
  match h : t.schema.metadata with
  | none => isFalse fun hc => by
      unfold bothMetaPopulatedConsistent at hc
      rw [h] at hc
      exact hc
  | some d => decidable_of_iff
      ((∀ f ∈ t.schema.fields, f.name ≠ "DATE" →
          (d.lookup f.name).isSome ∧ d.lookup f.name = f.meta) ∧
        ∀ nm ∈ d, ∃ f ∈ t.schema.fields, f.name = nm.1 ∧ f.meta = some nm.2)
      (by unfold bothMetaPopulatedConsistent; rw [h])

/-- C1 counterexample: the direct builder variant attaches per-column
blobs but **no** table-level blob (`pa.schema(field_list)` carries no
schema metadata and none is ever attached), so the table it builds from
`readerAB` violates the claimed invariant. -/
theorem direct_variant_lacks_table_blob :
    validOrder readerAB ["FOPR", "FGPT"] ∧
    buildDirect readerAB ["FOPR", "FGPT"] = .ok tblABdirect ∧
    tblABdirect.schema.metadata = none ∧
    ¬ bothMetaPopulatedConsistent tblABdirect := by
  decide

/-- C1 as amended: the dataframe variant does populate both metadata
representations consistently (table-level blob and per-column blobs
describing identical metadata for the identical non-date column set),
while the direct variant attaches the per-column blobs only — every
non-date column carries its record, but the table-level metadata is
absent. -/
theorem metadata_representations (r : SmryReader) (hd : "DATE" ∉ r.keys) :
    (∀ t, buildViaDframe r = .ok t → bothMetaPopulatedConsistent t) ∧
    (∀ order t, buildDirect r order = .ok t →
      t.schema.metadata = none ∧
      ∀ f ∈ t.schema.fields, f.name ≠ "DATE" →
        f.meta = some (r.metaOf f.name)) := by
  constructor
  · intro t hb
    obtain ⟨hmeta, hfields, -⟩ := buildViaDframe_ok_shape r t hb
    rw [viaDframe_fields_closed r hd] at hfields
    unfold bothMetaPopulatedConsistent
    rw [hmeta]
    constructor
    · intro f hf hn
      rw [hfields] at hf
      simp only [List.mem_cons, List.mem_map] at hf
      rcases hf with rfl | ⟨n, hn', rfl⟩
      · exact absurd rfl hn
      · simp only
        rw [lookup_createSmryMetaDict_mem r _ _ hn']
        exact ⟨rfl, rfl⟩
    · intro nm hnm
      simp only [createSmryMetaDict, List.mem_map] at hnm
      obtain ⟨n, hn', rfl⟩ := hnm
      refine ⟨⟨n, DType.float32, some (r.metaOf n)⟩, ?_, rfl, rfl⟩
      rw [hfields]
      exact List.mem_cons_of_mem _ (List.mem_map_of_mem _ hn')
  · intro order t hb
    obtain rfl := buildDirect_ok_shape r order t hb
    refine ⟨rfl, ?_⟩
    intro f hf hn
    simp only [List.mem_cons, List.mem_map] at hf
    rcases hf with rfl | ⟨n, hn', rfl⟩
    · exact absurd rfl hn
    · rfl

/-- Witness for the amended C1 at `readerAB`: the dataframe variant's
table satisfies the two-representation consistency property. -/
theorem metadata_representations_witness :
    ("DATE" ∉ readerAB.keys) ∧
    buildViaDframe readerAB = .ok tblABvia ∧
    bothMetaPopulatedConsistent tblABvia := by
  refine ⟨by decide, by decide, ?_⟩
  exact (metadata_representations readerAB (by decide)).1 tblABvia (by decide)

/-! ## Name-based access lemmas -/

/-- Looking up an index by predicate over one map of a base list and
indexing a second map of the same list with it is a by-name lookup. -/
lemma findIdx_two_maps {α β γ : Type} (l : List α) (fF : α → β)
    (fC : α → γ) (p : β → Bool) :
    (List.findIdx? p (l.map fF) 0).bind (fun i => (l.map fC)[i]?) =
    (l.find? fun a => p (fF a)).map fC := by
  induction l with
  | nil => simp
  | cons a t ih =>
    rw [List.map_cons, List.findIdx?_cons, List.map_cons]
    by_cases h : p (fF a) = true
    · rw [if_pos h]
      simp [List.find?_cons, h]
    · rw [if_neg h, List.findIdx?_succ]
      have hshift : ∀ (X : Option Nat),
          (Option.map (fun i => i + 1) X).bind
            (fun i => (fC a :: t.map fC)[i]?) =
          X.bind fun i => (t.map fC)[i]? := by
        intro X
        cases X <;> simp
      rw [hshift, ih]
      simp [List.find?_cons, h]

/-- `find?` over a map of distinct-name field builders resolves by list
membership. -/
lemma find_map_names (o : List String) (mkF : String → Field)
    (hname : ∀ m, (mkF m).name = m) (n : String) :
    List.find? (fun f => f.name == n) (o.map mkF) =
    if n ∈ o then some (mkF n) else none := by
  induction o with
  | nil => simp
  | cons a t ih =>
    rw [List.map_cons]
    by_cases h : a = n
    · subst h
      rw [List.find?_cons_of_pos _ (by simp [hname]), if_pos (by simp)]
    · rw [List.find?_cons_of_neg _ (by simp [hname, h]), ih]
      have h' : ¬n = a := fun hh => h hh.symm
      simp [List.mem_cons, h']

/-- `find?` for string self-lookup: a member resolves to itself. -/
lemma find_self_of_mem (o : List String) (n : String) (hm : n ∈ o) :
    List.find? (fun a => a == n) o = some n := by
  induction o with
  | nil => cases hm
  | cons a t ih =>
    by_cases ha : a = n
    · subst ha
      exact List.find?_cons_of_pos _ (by simp)
    · rw [List.find?_cons_of_neg _ (by simpa using ha)]
      refine ih ?_
      rcases List.mem_cons.mp hm with h | h
      · exact absurd h.symm ha
      · exact h

/-- `find?` for string self-lookup: a non-member resolves to nothing. -/
lemma find_self_of_not_mem (o : List String) (n : String) (hm : n ∉ o) :
    List.find? (fun a => a == n) o = none := by
  rw [List.find?_eq_none]
  intro a ha
  simpa using fun hh : a = n => hm (hh ▸ ha)

/-- By-name column access in a table built by `buildDirect`'s shape:
DATE resolves to the timestamp column, an ordered name to its converted
samples, anything else to nothing. -/
lemma colOf_built (r : SmryReader) (order : List String) (n : String) :
    colOf ⟨⟨⟨"DATE", DType.timestampMs, none⟩ ::
        order.map fun m => ⟨m, DType.float32, some (r.metaOf m)⟩, none⟩,
      r.datesMs.map Cell.timestamp ::
        order.map fun m => (r.vecOf m).map fun v => Cell.f32 (roundF32 v)⟩ n =
    if n = "DATE" then some (r.datesMs.map Cell.timestamp)
    else if n ∈ order then
      some ((r.vecOf n).map fun v => Cell.f32 (roundF32 v))
    else none := by
  unfold colOf
  simp only [List.findIdx?_cons]
  by_cases h : n = "DATE"
  · subst h
    rw [if_pos (by simp), if_pos rfl]
    simp
  · rw [if_neg (by simpa using fun hh : "DATE" = n => h hh.symm), if_neg h,
      List.findIdx?_succ]
    have hshift : ∀ (X : Option Nat),
        (Option.map (fun i => i + 1) X).bind
          (fun i => ((r.datesMs.map Cell.timestamp) ::
            (order.map fun m => (r.vecOf m).map fun v =>
              Cell.f32 (roundF32 v)))[i]?) =
        X.bind fun i =>
          ((order.map fun m => (r.vecOf m).map fun v =>
            Cell.f32 (roundF32 v)))[i]? := by
      intro X
      cases X <;> simp
    rw [hshift, findIdx_two_maps]
    rw [show (fun a =>
        ((⟨a, DType.float32, some (r.metaOf a)⟩ : Field).name == n)) =
      fun a => a == n from rfl]
    by_cases hm : n ∈ order
    · rw [if_pos hm, find_self_of_mem order n hm]
      rfl
    · rw [if_neg hm, find_self_of_not_mem order n hm]
      rfl

/-- By-name field access in a table built by `buildDirect`'s shape. -/
lemma findField_built (r : SmryReader) (order : List String) (n : String) :
    findField (⟨"DATE", DType.timestampMs, none⟩ ::
      order.map fun m => (⟨m, DType.float32, some (r.metaOf m)⟩ : Field)) n =
    if n = "DATE" then some ⟨"DATE", DType.timestampMs, none⟩
    else if n ∈ order then some ⟨n, DType.float32, some (r.metaOf n)⟩
    else none := by
  unfold findField
  by_cases h : n = "DATE"
  · subst h
    rw [List.find?_cons_of_pos _ (by simp), if_pos rfl]
  · rw [List.find?_cons_of_neg _
      (by simpa using fun hh : "DATE" = n => h hh.symm), if_neg h]
    exact find_map_names order _ (fun m => rfl) n

/-! ## C9: determinism of schema construction -/

/-- C9 counterexample: the direct builder's column order is the iteration
order of a Python string `set`, which is not a function of the reader
output (string hashing is salted per interpreter run).  Two valid
iteration orders of the same deduplicated name set produce different
tables — so two runs over identical reader output need not produce
identical tables. -/
theorem buildDirect_depends_on_set_order :
    validOrder readerAB ["FOPR", "FGPT"] ∧
    validOrder readerAB ["FGPT", "FOPR"] ∧
    buildDirect readerAB ["FOPR", "FGPT"] ≠
      buildDirect readerAB ["FGPT", "FOPR"] := by
  decide

/-- C9 as amended: the construction is deterministic in everything except
the column order.  For one reader output and any two valid set iteration
orders, the two builds assign every column name the identical field
(type and metadata record) and the identical cell data, and carry the
identical (absent) table-level metadata; only the positional order of
the non-date columns can differ. -/
theorem buildDirect_content_deterministic (r : SmryReader)
    (o1 o2 : List String) (t1 t2 : Table)
    (h1 : validOrder r o1) (h2 : validOrder r o2)
    (hb1 : buildDirect r o1 = .ok t1) (hb2 : buildDirect r o2 = .ok t2) :
    (∀ n, findField t1.schema.fields n = findField t2.schema.fields n) ∧
    (∀ n, colOf t1 n = colOf t2 n) ∧
    t1.schema.metadata = t2.schema.metadata := by
  obtain rfl := buildDirect_ok_shape _ _ _ hb1
  obtain rfl := buildDirect_ok_shape _ _ _ hb2
  have hmem : ∀ n, n ∈ o1 ↔ n ∈ o2 := fun n =>
    ⟨fun h => h2.2.2 n (h1.2.1 n h), fun h => h1.2.2 n (h2.2.1 n h)⟩
  refine ⟨fun n => ?_, fun n => ?_, rfl⟩
  · rw [findField_built, findField_built]
    by_cases h : n = "DATE"
    · rw [if_pos h, if_pos h]
    · rw [if_neg h, if_neg h, if_congr (hmem n) rfl rfl]
  · rw [colOf_built, colOf_built]
    by_cases h : n = "DATE"
    · rw [if_pos h, if_pos h]
    · rw [if_neg h, if_neg h, if_congr (hmem n) rfl rfl]

/-- Witness for the amended C9 at `readerAB` and its two orders. -/
theorem buildDirect_content_deterministic_witness :
    validOrder readerAB ["FOPR", "FGPT"] ∧
    validOrder readerAB ["FGPT", "FOPR"] ∧
    (∀ n, colOf tblABdirect n = colOf tblBAdirect n) := by
  refine ⟨by decide, by decide, ?_⟩
  exact (buildDirect_content_deterministic readerAB ["FOPR", "FGPT"]
    ["FGPT", "FOPR"] tblABdirect tblBAdirect (by decide) (by decide)
    (by decide) (by decide)).2.1

/-! ## C10: equivalence of the two conversion variants -/

/-- Success of the direct builder for length-consistent inputs, with the
resulting table spelled out. -/
lemma buildDirect_succeeds (r : SmryReader) (order : List String)
    (hlen : ∀ n ∈ order, (r.vecOf n).length = r.datesMs.length) :
    buildDirect r order = .ok
      ⟨⟨⟨"DATE", DType.timestampMs, none⟩ ::
          order.map fun n => ⟨n, DType.float32, some (r.metaOf n)⟩, none⟩,
        r.datesMs.map Cell.timestamp ::
          order.map fun n => (r.vecOf n).map fun v => Cell.f32 (roundF32 v)⟩ := by
  simp only [buildDirect, paTable]
  rw [if_pos]
  constructor
  · simp
  · intro a ha
    simp only [List.headD_cons, List.length_map]
    simp only [List.mem_cons, List.mem_map] at ha
    rcases ha with rfl | ⟨n, hn, rfl⟩
    · simp
    · simp [hlen n hn]

/-- Success of the dataframe builder for in-range, length-consistent
inputs, with the resulting table spelled out. -/
lemma buildViaDframe_succeeds (r : SmryReader)
    (hrange : r.datesMs.all pandasInRange = true)
    (hlen : ∀ n ∈ r.keys.dedup, (r.vecOf n).length = r.datesMs.length) :
    buildViaDframe r = .ok
      ⟨⟨(setMetadataPerField (createFloatDowncastingSchema
          (setDateColumnTypeToTimestampMs ⟨⟨"DATE", DType.timestampNs, none⟩ ::
            (r.keys.dedup).map fun n => ⟨n, DType.float64, none⟩, none⟩))
          (createSmryMetaDict r r.keys.dedup)).fields,
        some (createSmryMetaDict r r.keys.dedup)⟩,
      r.datesMs.map Cell.timestamp ::
        (r.keys.dedup).map fun n => (r.vecOf n).map fun v =>
          Cell.f32 (roundF32 v)⟩ := by
  simp only [buildViaDframe, paTable]
  rw [if_pos hrange, if_pos]
  · rfl
  · constructor
    · simp [setMetadataPerField, createFloatDowncastingSchema,
        setDateColumnTypeToTimestampMs]
    · intro a ha
      simp only [List.headD_cons, List.length_map]
      simp only [List.mem_cons, List.mem_map] at ha
      rcases ha with rfl | ⟨n, hn, rfl⟩
      · simp
      · simp [hlen n hn]

/-- C10 counterexample: on `readerAB` (even with the set iteration order
equal to the dataframe column order) the two `_load_smry_into_table`
variants produce different tables — the direct one carries no
table-level metadata, the dataframe one does. -/
theorem variants_differ_on_table_metadata :
    validOrder readerAB ["FOPR", "FGPT"] ∧
    buildDirect readerAB ["FOPR", "FGPT"] = .ok tblABdirect ∧
    buildViaDframe readerAB = .ok tblABvia ∧
    tblABdirect ≠ tblABvia ∧
    tblABdirect.schema.metadata = none ∧
    tblABvia.schema.metadata ≠ none := by
  decide

/-- C10 as amended: for in-range, length-consistent readers, when the
set iteration order coincides with the dataframe column order (the
deduplicated key enumeration), the two variants agree on column names,
order, types, per-column metadata and all cell values; they differ only
in the table-level metadata, which the direct variant omits and the
dataframe variant populates.  (Beyond the pandas range the dataframe
variant fails outright while the direct one succeeds — see C2.) -/
theorem variants_agree_except_table_blob (r : SmryReader)
    (hd : "DATE" ∉ r.keys)
    (hrange : r.datesMs.all pandasInRange = true)
    (hlen : ∀ n ∈ r.keys, (r.vecOf n).length = r.datesMs.length) :
    ∃ t1 t2, buildDirect r r.keys.dedup = .ok t1 ∧
      buildViaDframe r = .ok t2 ∧
      t1.schema.fields = t2.schema.fields ∧
      t1.cols = t2.cols ∧
      t1.schema.metadata = none ∧
      t2.schema.metadata = some (createSmryMetaDict r r.keys.dedup) := by
  have hlen' : ∀ n ∈ r.keys.dedup, (r.vecOf n).length = r.datesMs.length :=
    fun n hn => hlen n (List.mem_dedup.mp hn)
  refine ⟨_, _, buildDirect_succeeds r r.keys.dedup hlen',
    buildViaDframe_succeeds r hrange hlen', ?_, rfl, rfl, rfl⟩
  exact (viaDframe_fields_closed r hd).symm

/-- Witness for the amended C10 at `readerAB`. -/
theorem variants_agree_except_table_blob_witness :
    ("DATE" ∉ readerAB.keys) ∧
    readerAB.datesMs.all pandasInRange = true ∧
    (∀ n ∈ readerAB.keys,
      (readerAB.vecOf n).length = readerAB.datesMs.length) ∧
    ∃ t1 t2, buildDirect readerAB readerAB.keys.dedup = .ok t1 ∧
      buildViaDframe readerAB = .ok t2 ∧
      t1.schema.fields = t2.schema.fields ∧
      t1.cols = t2.cols ∧
      t1.schema.metadata = none ∧
      t2.schema.metadata =
        some (createSmryMetaDict readerAB readerAB.keys.dedup) := by
  refine ⟨by decide, by decide, by decide, ?_⟩
  exact variants_agree_except_table_blob readerAB (by decide) (by decide)
    (by decide)

/-! ## Lemmas about schema unification -/

/-- `findField` success: the found field is a member and has the looked-up
name. -/
lemma findField_some (fs : List Field) (n : String) (g : Field)
    (h : findField fs n = some g) : g ∈ fs ∧ g.name = n := by
  unfold findField at h
  exact ⟨List.mem_of_find?_eq_some h, by simpa using List.find?_some h⟩

/-- `findField` failure: no member carries the looked-up name. -/
lemma findField_none (fs : List Field) (n : String)
    (h : findField fs n = none) : ∀ g ∈ fs, g.name ≠ n := by
  unfold findField at h
  intro g hg
  simpa using List.find?_eq_none.mp h g hg

/-- Step equation: a fresh name is appended to the accumulator. -/
lemma unifyFields_cons_none (acc : List Field) (f : Field)
    (rest : List Field) (hff : findField acc f.name = none) :
    unifyFields acc (f :: rest) = unifyFields (acc ++ [f]) rest := by
  simp only [unifyFields, hff]

/-- Step equation: a seen name with an agreeing type is skipped. -/
lemma unifyFields_cons_seen (acc : List Field) (f g : Field)
    (rest : List Field) (hff : findField acc f.name = some g)
    (hdty : g.dtype = f.dtype) :
    unifyFields acc (f :: rest) = unifyFields acc rest := by
  simp only [unifyFields, hff, if_pos hdty]

/-- Step equation: a seen name with a disagreeing type is a conflict. -/
lemma unifyFields_cons_conflict (acc : List Field) (f g : Field)
    (rest : List Field) (hff : findField acc f.name = some g)
    (hdty : ¬g.dtype = f.dtype) :
    unifyFields acc (f :: rest) = .error .schemaConflictError := by
  simp only [unifyFields, hff, if_neg hdty]

/-- The only error `unifyFields` raises is the schema conflict. -/
lemma unifyFields_error (acc fs : List Field) (e : Err)
    (h : unifyFields acc fs = .error e) : e = .schemaConflictError := by
  induction fs generalizing acc with
  | nil => cases h
  | cons f rest ih =>
    rcases hff : findField acc f.name with _ | g
    · rw [unifyFields_cons_none acc f rest hff] at h
      exact ih _ h
    · by_cases hdty : g.dtype = f.dtype
      · rw [unifyFields_cons_seen acc f g rest hff hdty] at h
        exact ih _ h
      · rw [unifyFields_cons_conflict acc f g rest hff hdty] at h
        cases h
        rfl

/-- Unification only ever appends: the accumulator is contained in the
result. -/
lemma unifyFields_acc_sub (acc fs out : List Field)
    (h : unifyFields acc fs = .ok out) : ∀ g ∈ acc, g ∈ out := by
  induction fs generalizing acc with
  | nil =>
    cases h
    exact fun g hg => hg
  | cons f rest ih =>
    rcases hff : findField acc f.name with _ | g
    · rw [unifyFields_cons_none acc f rest hff] at h
      exact fun g hg => ih _ h g (List.mem_append_left _ hg)
    · by_cases hdty : g.dtype = f.dtype
      · rw [unifyFields_cons_seen acc f g rest hff hdty] at h
        exact ih _ h
      · rw [unifyFields_cons_conflict acc f g rest hff hdty] at h
        cases h

/-- Everything in the result came from the accumulator or the input. -/
lemma unifyFields_origin (acc fs out : List Field)
    (h : unifyFields acc fs = .ok out) :
    ∀ g ∈ out, g ∈ acc ∨ g ∈ fs := by
  induction fs generalizing acc with
  | nil =>
    cases h
    exact fun g hg => Or.inl hg
  | cons f rest ih =>
    rcases hff : findField acc f.name with _ | g
    · rw [unifyFields_cons_none acc f rest hff] at h
      intro g hg
      rcases ih _ h g hg with hg' | hg'
      · rcases List.mem_append.mp hg' with hg'' | hg''
        · exact Or.inl hg''
        · obtain rfl := List.mem_singleton.mp hg''
          exact Or.inr (by simp)
      · exact Or.inr (List.mem_cons_of_mem _ hg')
    · by_cases hdty : g.dtype = f.dtype
      · rw [unifyFields_cons_seen acc f g rest hff hdty] at h
        intro x hx
        rcases ih _ h x hx with hx' | hx'
        · exact Or.inl hx'
        · exact Or.inr (List.mem_cons_of_mem _ hx')
      · rw [unifyFields_cons_conflict acc f g rest hff hdty] at h
        cases h

/-- Every input field is represented in the result by a field of the
same name and the same declared type. -/
lemma unifyFields_covers (acc fs out : List Field)
    (h : unifyFields acc fs = .ok out) :
    ∀ f ∈ fs, ∃ g ∈ out, g.name = f.name ∧ g.dtype = f.dtype := by
  induction fs generalizing acc with
  | nil => exact fun f hf => absurd hf (List.not_mem_nil f)
  | cons f rest ih =>
    rcases hff : findField acc f.name with _ | g
    · rw [unifyFields_cons_none acc f rest hff] at h
      intro x hx
      rcases List.mem_cons.mp hx with rfl | hx'
      · exact ⟨x, unifyFields_acc_sub _ _ _ h x
          (List.mem_append_right _ (by simp)), rfl, rfl⟩
      · exact ih _ h x hx'
    · by_cases hdty : g.dtype = f.dtype
      · rw [unifyFields_cons_seen acc f g rest hff hdty] at h
        intro x hx
        rcases List.mem_cons.mp hx with rfl | hx'
        · obtain ⟨hgmem, hgname⟩ := findField_some _ _ _ hff
          exact ⟨g, unifyFields_acc_sub _ _ _ h g hgmem, hgname, hdty⟩
        · exact ih _ h x hx'
      · rw [unifyFields_cons_conflict acc f g rest hff hdty] at h
        cases h

/-- Unification keeps field names duplicate-free. -/
lemma unifyFields_nodup (acc fs out : List Field)
    (hnd : (acc.map Field.name).Nodup)
    (h : unifyFields acc fs = .ok out) :
    (out.map Field.name).Nodup := by
  induction fs generalizing acc with
  | nil =>
    cases h
    exact hnd
  | cons f rest ih =>
    rcases hff : findField acc f.name with _ | g
    · rw [unifyFields_cons_none acc f rest hff] at h
      refine ih (acc ++ [f]) ?_ h
      rw [List.map_append]
      simp only [List.map_cons, List.map_nil]
      rw [List.nodup_append]
      refine ⟨hnd, List.nodup_singleton _, ?_⟩
      intro a ha
      simp only [List.mem_singleton]
      obtain ⟨x, hx, rfl⟩ := List.mem_map.mp ha
      exact fun he => findField_none _ _ hff x hx he
    · by_cases hdty : g.dtype = f.dtype
      · rw [unifyFields_cons_seen acc f g rest hff hdty] at h
        exact ih _ hnd h
      · rw [unifyFields_cons_conflict acc f g rest hff hdty] at h
        cases h

/-- A name is present in the unified result iff it is present in the
accumulator or in the input. -/
lemma unifyFields_names (acc fs out : List Field)
    (h : unifyFields acc fs = .ok out) (n : String) :
    (∃ g ∈ out, g.name = n) ↔
      (∃ g ∈ acc, g.name = n) ∨ ∃ f ∈ fs, f.name = n := by
  induction fs generalizing acc with
  | nil =>
    cases h
    simp
  | cons f rest ih =>
    rcases hff : findField acc f.name with _ | g
    · rw [unifyFields_cons_none acc f rest hff] at h
      rw [ih _ h]
      constructor
      · rintro (⟨g, hg, rfl⟩ | hr)
        · rcases List.mem_append.mp hg with hg' | hg'
          · exact Or.inl ⟨g, hg', rfl⟩
          · obtain rfl := List.mem_singleton.mp hg'
            exact Or.inr ⟨g, by simp, rfl⟩
        · obtain ⟨x, hx, rfl⟩ := hr
          exact Or.inr ⟨x, List.mem_cons_of_mem _ hx, rfl⟩
      · rintro (⟨g, hg, rfl⟩ | ⟨x, hx, rfl⟩)
        · exact Or.inl ⟨g, List.mem_append_left _ hg, rfl⟩
        · rcases List.mem_cons.mp hx with rfl | hx'
          · exact Or.inl ⟨x, List.mem_append_right _ (by simp), rfl⟩
          · exact Or.inr ⟨x, hx', rfl⟩
    · by_cases hdty : g.dtype = f.dtype
      · rw [unifyFields_cons_seen acc f g rest hff hdty] at h
        rw [ih _ h]
        obtain ⟨hgmem, hgname⟩ := findField_some _ _ _ hff
        constructor
        · rintro (hl | ⟨x, hx, rfl⟩)
          · exact Or.inl hl
          · exact Or.inr ⟨x, List.mem_cons_of_mem _ hx, rfl⟩
        · rintro (hl | ⟨x, hx, rfl⟩)
          · exact Or.inl hl
          · rcases List.mem_cons.mp hx with rfl | hx'
            · exact Or.inl ⟨g, hgmem, hgname⟩
            · exact Or.inr ⟨x, hx', rfl⟩
      · rw [unifyFields_cons_conflict acc f g rest hff hdty] at h
        cases h

/-- Unification succeeds when every pair of same-named fields (between the
accumulator and the input, or within the input) agrees on the type. -/
lemma unifyFields_ok (acc fs : List Field)
    (hacc : ∀ f ∈ fs, ∀ g ∈ acc, g.name = f.name → g.dtype = f.dtype)
    (hself : ∀ f ∈ fs, ∀ g ∈ fs, g.name = f.name → g.dtype = f.dtype) :
    ∃ out, unifyFields acc fs = .ok out := by
  induction fs generalizing acc with
  | nil => exact ⟨acc, rfl⟩
  | cons f rest ih =>
    rcases hff : findField acc f.name with _ | g
    · rw [unifyFields_cons_none acc f rest hff]
      refine ih (acc ++ [f]) ?_ ?_
      · intro x hx g hg hname
        rcases List.mem_append.mp hg with hg' | hg'
        · exact hacc x (List.mem_cons_of_mem _ hx) g hg' hname
        · obtain rfl := List.mem_singleton.mp hg'
          exact hself x (List.mem_cons_of_mem _ hx) g (by simp) hname
      · intro x hx g hg hname
        exact hself x (List.mem_cons_of_mem _ hx) g
          (List.mem_cons_of_mem _ hg) hname
    · obtain ⟨hgmem, hgname⟩ := findField_some _ _ _ hff
      rw [unifyFields_cons_seen acc f g rest hff
        (hacc f (by simp) g hgmem hgname)]
      refine ih acc ?_ ?_
      · intro x hx g' hg' hname
        exact hacc x (List.mem_cons_of_mem _ hx) g' hg' hname
      · intro x hx g' hg' hname
        exact hself x (List.mem_cons_of_mem _ hx) g'
          (List.mem_cons_of_mem _ hg') hname

/-! ## Lemmas about unifying a whole table list -/

/-- `Except` bind on an error short-circuits. -/
lemma except_error_bind {α β γ : Type} (e : α) (f : β → Except α γ) :
    (Except.error e >>= f) = Except.error e := rfl

/-- `Except` bind on a success applies the continuation. -/
lemma except_ok_bind {α β γ : Type} (b : β) (f : β → Except α γ) :
    (Except.ok b >>= f : Except α γ) = f b := rfl

/-- The only error the unification fold raises is the schema conflict. -/
lemma foldUnify_error (ts : List Table) : ∀ (acc : List Field) (e : Err),
    ts.foldlM (fun a t => unifyFields a t.schema.fields) acc = .error e →
    e = .schemaConflictError := by
  induction ts with
  | nil =>
    intro acc e h
    cases h
  | cons t rest ih =>
    intro acc e h
    rw [List.foldlM_cons] at h
    rcases h1 : unifyFields acc t.schema.fields with e1 | acc' <;> rw [h1] at h
    · rw [except_error_bind] at h
      cases h
      exact unifyFields_error _ _ _ h1
    · rw [except_ok_bind] at h
      exact ih acc' e h

/-- The accumulator survives the unification fold. -/
lemma foldUnify_sub (ts : List Table) : ∀ (acc out : List Field),
    ts.foldlM (fun a t => unifyFields a t.schema.fields) acc = .ok out →
    ∀ g ∈ acc, g ∈ out := by
  induction ts with
  | nil =>
    intro acc out h
    cases h
    exact fun g hg => hg
  | cons t rest ih =>
    intro acc out h
    rw [List.foldlM_cons] at h
    rcases h1 : unifyFields acc t.schema.fields with e1 | acc' <;> rw [h1] at h
    · rw [except_error_bind] at h
      cases h
    · rw [except_ok_bind] at h
      exact fun g hg => ih acc' out h g (unifyFields_acc_sub _ _ _ h1 g hg)

/-- Every field of every input table is represented in the unified result
by a field of the same name and declared type. -/
lemma foldUnify_covers (ts : List Table) : ∀ (acc out : List Field),
    ts.foldlM (fun a t => unifyFields a t.schema.fields) acc = .ok out →
    ∀ t ∈ ts, ∀ f ∈ t.schema.fields,
      ∃ g ∈ out, g.name = f.name ∧ g.dtype = f.dtype := by
  induction ts with
  | nil =>
    intro acc out h t ht
    cases ht
  | cons t rest ih =>
    intro acc out h t' ht' f hf
    rw [List.foldlM_cons] at h
    rcases h1 : unifyFields acc t.schema.fields with e1 | acc' <;> rw [h1] at h
    · rw [except_error_bind] at h
      cases h
    · rw [except_ok_bind] at h
      rcases List.mem_cons.mp ht' with rfl | ht''
      · obtain ⟨g, hg, hname, hdty⟩ := unifyFields_covers _ _ _ h1 f hf
        exact ⟨g, foldUnify_sub rest acc' out h g hg, hname, hdty⟩
      · exact ih acc' out h t' ht'' f hf

/-- The unification fold keeps field names duplicate-free. -/
lemma foldUnify_nodup (ts : List Table) : ∀ (acc out : List Field),
    (acc.map Field.name).Nodup →
    ts.foldlM (fun a t => unifyFields a t.schema.fields) acc = .ok out →
    (out.map Field.name).Nodup := by
  induction ts with
  | nil =>
    intro acc out hnd h
    cases h
    exact hnd
  | cons t rest ih =>
    intro acc out hnd h
    rw [List.foldlM_cons] at h
    rcases h1 : unifyFields acc t.schema.fields with e1 | acc' <;> rw [h1] at h
    · rw [except_error_bind] at h
      cases h
    · rw [except_ok_bind] at h
      exact ih acc' out (unifyFields_nodup _ _ _ hnd h1) h

/-- A name occurs in the unified result iff it occurs in the accumulator
or in some input table. -/
lemma foldUnify_names (ts : List Table) : ∀ (acc out : List Field),
    ts.foldlM (fun a t => unifyFields a t.schema.fields) acc = .ok out →
    ∀ n, (∃ g ∈ out, g.name = n) ↔
      (∃ g ∈ acc, g.name = n) ∨
        ∃ t ∈ ts, ∃ f ∈ t.schema.fields, f.name = n := by
  induction ts with
  | nil =>
    intro acc out h n
    cases h
    simp
  | cons t rest ih =>
    intro acc out h n
    rw [List.foldlM_cons] at h
    rcases h1 : unifyFields acc t.schema.fields with e1 | acc' <;> rw [h1] at h
    · rw [except_error_bind] at h
      cases h
    · rw [except_ok_bind] at h
      rw [ih acc' out h n, unifyFields_names _ _ _ h1 n]
      constructor
      · rintro ((hacc | hth) | hrest)
        · exact Or.inl hacc
        · obtain ⟨f, hf, rfl⟩ := hth
          exact Or.inr ⟨t, by simp, f, hf, rfl⟩
        · obtain ⟨t', ht', f, hf, rfl⟩ := hrest
          exact Or.inr ⟨t', List.mem_cons_of_mem _ ht', f, hf, rfl⟩
      · rintro (hacc | ⟨t', ht', f, hf, rfl⟩)
        · exact Or.inl (Or.inl hacc)
        · rcases List.mem_cons.mp ht' with rfl | ht''
          · exact Or.inl (Or.inr ⟨f, hf, rfl⟩)
          · exact Or.inr ⟨t', ht'', f, hf, rfl⟩

/-- The unification fold succeeds whenever all same-named fields across
the accumulator and the tables agree on the declared type. -/
lemma foldUnify_ok (ts : List Table) : ∀ (acc : List Field),
    (∀ t ∈ ts, ∀ f ∈ t.schema.fields, ∀ g ∈ acc,
      g.name = f.name → g.dtype = f.dtype) →
    (∀ t ∈ ts, ∀ t' ∈ ts, ∀ f ∈ t.schema.fields, ∀ g ∈ t'.schema.fields,
      f.name = g.name → f.dtype = g.dtype) →
    ∃ out, ts.foldlM (fun a t => unifyFields a t.schema.fields) acc =
      .ok out := by
  induction ts with
  | nil =>
    intro acc _ _
    exact ⟨acc, rfl⟩
  | cons t rest ih =>
    intro acc hacc hcompat
    obtain ⟨acc', h1⟩ := unifyFields_ok acc t.schema.fields
      (fun f hf g hg hname => hacc t (by simp) f hf g hg hname)
      (fun f hf g hg hname => hcompat t (by simp) t (by simp) g hg f hf hname)
    obtain ⟨out, h2⟩ := ih acc'
      (by
        intro t' ht' f hf g hg hname
        rcases unifyFields_origin _ _ _ h1 g hg with hg' | hg'
        · exact hacc t' (List.mem_cons_of_mem _ ht') f hf g hg' hname
        · exact hcompat t (by simp) t' (List.mem_cons_of_mem _ ht')
            g hg' f hf hname)
      (by
        intro t1 ht1 t2 ht2 f hf g hg hname
        exact hcompat t1 (List.mem_cons_of_mem _ ht1) t2
          (List.mem_cons_of_mem _ ht2) f hf g hg hname)
    exact ⟨out, by rw [List.foldlM_cons, h1, except_ok_bind]; exact h2⟩

/-! ## Column access in concatenated tables -/

/-- `colOf` on a table whose columns are generated per field. -/
lemma colOf_mapped_cols (fields : List Field)
    (m : Option (List (String × ColMeta))) (g : Field → List Cell)
    (n : String) :
    colOf ⟨⟨fields, m⟩, fields.map g⟩ n =
      (fields.find? fun f => f.name == n).map g := by
  unfold colOf
  have h := findIdx_two_maps fields id g fun f => f.name == n
  simp only [List.map_id] at h
  exact h

/-- With duplicate-free names, `find?` on a member's name returns that
member. -/
lemma find_name_self (fields : List Field)
    (hnd : (fields.map Field.name).Nodup) (f : Field) (hf : f ∈ fields) :
    fields.find? (fun x => x.name == f.name) = some f := by
  induction fields with
  | nil => cases hf
  | cons a t ih =>
    rw [List.map_cons, List.nodup_cons] at hnd
    rcases List.mem_cons.mp hf with rfl | hf'
    · exact List.find?_cons_of_pos _ (by simp)
    · have hne : ¬a.name = f.name := fun he =>
        hnd.1 (he ▸ List.mem_map_of_mem Field.name hf')
      rw [List.find?_cons_of_neg _ (by simpa using hne)]
      exact ih hnd.2 hf'

/-- Two same-named members of a duplicate-free field list are equal. -/
lemma eq_of_name_eq_of_nodup (fields : List Field)
    (hnd : (fields.map Field.name).Nodup) (a b : Field)
    (ha : a ∈ fields) (hb : b ∈ fields) (hname : a.name = b.name) :
    a = b := by
  induction fields with
  | nil => cases ha
  | cons x t ih =>
    rw [List.map_cons, List.nodup_cons] at hnd
    rcases List.mem_cons.mp ha with rfl | ha' <;>
      rcases List.mem_cons.mp hb with rfl | hb'
    · rfl
    · exact absurd (by rw [hname]; exact List.mem_map_of_mem Field.name hb') hnd.1
    · exact absurd (by rw [← hname]; exact List.mem_map_of_mem Field.name ha') hnd.1
    · exact ih hnd.2 ha' hb'

/-- A column found by name is one of the table's columns. -/
lemma colOf_mem (t : Table) (n : String) (cl : List Cell)
    (h : colOf t n = some cl) : cl ∈ t.cols := by
  unfold colOf at h
  rcases hfi : List.findIdx? (fun f => f.name == n) t.schema.fields
    with _ | i <;> rw [hfi] at h
  · cases h
  · simp only [Option.some_bind] at h
    exact List.getElem?_mem h

/-- `colOrNulls` always contributes exactly the table's row count. -/
lemma length_colOrNulls (t : Table) (n : String) (hwf : wfTable t) :
    (colOrNulls t n).length = t.numRows := by
  unfold colOrNulls
  rcases h : colOf t n with _ | cl
  · simp
  · simpa using hwf.2 cl (colOf_mem t n cl h)

/-- Extracting one input segment from a flattened column list. -/
lemma flatten_drop_take (L : List (List Cell)) :
    ∀ (i : Nat) (hi : i < L.length),
    ((L.flatten).drop (((L.take i).map List.length).sum)).take L[i].length
      = L[i] := by
  induction L with
  | nil =>
    intro i hi
    exact absurd hi (by simp)
  | cons x rest ih =>
    intro i hi
    cases i with
    | zero =>
      simp only [List.take_zero, List.map_nil, List.sum_nil, List.drop_zero,
        List.flatten_cons, List.getElem_cons_zero]
      exact List.take_left x rest.flatten
    | succ j =>
      simp only [List.take_succ_cons, List.map_cons, List.sum_cons,
        List.flatten_cons, List.getElem_cons_succ]
      rw [← List.drop_drop, List.drop_left]
      exact ih j (by simpa using hi)

/-! ## C3: the concatenation column-union property -/

/-- C3: for every non-empty list of well-formed input tables whose
same-named columns agree on the declared type, concatenation succeeds
and (a) the output column-name set is the union of the input column-name
sets, (b) every output column stacks, in input order, each input table's
own rows for that name — with one null per row for a table missing the
name — so that (c) the output column length is the total row count and
the i-th input's segment of the output is exactly its own column, or all
nulls when it lacks the column. -/
theorem concat_column_union (ts : List Table)
    (hne : ts ≠ [])
    (hwf : ∀ t ∈ ts, wfTable t)
    (hcompat : ∀ t ∈ ts, ∀ t' ∈ ts, ∀ f ∈ t.schema.fields,
      ∀ g ∈ t'.schema.fields, f.name = g.name → f.dtype = g.dtype) :
    ∃ u, concatTables ts = .ok u ∧
      (∀ n, (∃ f ∈ u.schema.fields, f.name = n) ↔
        ∃ t ∈ ts, ∃ f ∈ t.schema.fields, f.name = n) ∧
      (∀ f ∈ u.schema.fields,
        colOf u f.name =
          some ((ts.map fun t => colOrNulls t f.name).flatten)) ∧
      (∀ f ∈ u.schema.fields, ∀ cl, colOf u f.name = some cl →
        cl.length = (ts.map Table.numRows).sum ∧
        ∀ i, (hi : i < ts.length) →
          ((cl.drop (((ts.take i).map Table.numRows).sum)).take
            ts[i].numRows = colOrNulls ts[i] f.name) ∧
          (colOf ts[i] f.name = none →
            (cl.drop (((ts.take i).map Table.numRows).sum)).take
              ts[i].numRows = List.replicate ts[i].numRows Cell.null)) := by
  obtain ⟨t0, rest, rfl⟩ : ∃ t0 rest, ts = t0 :: rest := by
    rcases ts with _ | ⟨t0, rest⟩
    · exact absurd rfl hne
    · exact ⟨t0, rest, rfl⟩
  obtain ⟨fields, hfold⟩ := foldUnify_ok (t0 :: rest) []
    (fun t ht f hf g hg => absurd hg (List.not_mem_nil g)) hcompat
  have hu : unifyAll (t0 :: rest) = .ok fields := hfold
  have hndout : (fields.map Field.name).Nodup :=
    foldUnify_nodup _ _ _ (by simp) hfold
  refine ⟨⟨⟨fields, t0.schema.metadata⟩,
    fields.map fun f =>
      ((t0 :: rest).map fun t => colOrNulls t f.name).flatten⟩,
    ?_, ?_, ?_, ?_⟩
  · simp only [concatTables]
    rw [hu]
  · intro n
    simpa using foldUnify_names (t0 :: rest) [] fields hfold n
  · intro f hf
    rw [colOf_mapped_cols, find_name_self fields hndout f hf]
    rfl
  · intro f hf cl hcl
    rw [colOf_mapped_cols, find_name_self fields hndout f hf] at hcl
    obtain rfl : cl =
        ((t0 :: rest).map fun t => colOrNulls t f.name).flatten := by
      simpa using hcl.symm
    constructor
    · rw [List.length_flatten, List.map_map]
      congr 1
      apply List.map_congr_left
      intro t ht
      exact length_colOrNulls t f.name (hwf t ht)
    · intro i hi
      have hseg := flatten_drop_take
        ((t0 :: rest).map fun t => colOrNulls t f.name) i (by simpa using hi)
      rw [List.getElem_map] at hseg
      have hsum : (((((t0 :: rest).map fun t =>
            colOrNulls t f.name)).take i).map List.length).sum =
          (((t0 :: rest).take i).map Table.numRows).sum := by
        rw [← List.map_take, List.map_map]
        congr 1
        apply List.map_congr_left
        intro t ht
        exact length_colOrNulls t f.name
          (hwf t (List.take_subset _ _ ht))
      rw [hsum] at hseg
      have hlen_i : (colOrNulls (t0 :: rest)[i] f.name).length =
          (t0 :: rest)[i].numRows :=
        length_colOrNulls _ _ (hwf _ (List.getElem_mem _))
      rw [hlen_i] at hseg
      refine ⟨hseg, fun hnone => ?_⟩
      rw [hseg]
      unfold colOrNulls
      rw [hnone]
      rfl

/-- Witness for C3 at the pair `tblA`, `tblB` (FGPR present only in the
second table). -/
theorem concat_column_union_witness :
    ([tblA, tblB] : List Table) ≠ [] ∧
    (∀ t ∈ [tblA, tblB], wfTable t) ∧
    ∃ u, concatTables [tblA, tblB] = .ok u ∧
      ((∃ f ∈ u.schema.fields, f.name = "FGPR") ↔
        ∃ t ∈ [tblA, tblB], ∃ f ∈ t.schema.fields, f.name = "FGPR") := by
  refine ⟨by decide, by decide, ?_⟩
  obtain ⟨u, hu, hnames, -, -⟩ :=
    concat_column_union [tblA, tblB] (by decide) (by decide) (by decide)
  exact ⟨u, hu, hnames "FGPR"⟩

/-! ## C6: type conflicts during concatenation -/

/-- C6: concatenating two tables that declare different types for the
same column name fails with the schema conflict error and produces no
output table. -/
theorem concat_type_conflict (t1 t2 : Table)
    (hconflict : ∃ f ∈ t1.schema.fields, ∃ g ∈ t2.schema.fields,
      f.name = g.name ∧ f.dtype ≠ g.dtype) :
    concatTables [t1, t2] = .error .schemaConflictError := by
  obtain ⟨f, hf, g, hg, hname, hdty⟩ := hconflict
  simp only [concatTables]
  rcases hu : unifyAll [t1, t2] with e | out
  · have he : e = .schemaConflictError := foldUnify_error [t1, t2] [] e hu
    rw [he]
  · exfalso
    obtain ⟨gf, hgf, hgfname, hgfdty⟩ :=
      foldUnify_covers [t1, t2] [] out hu t1 (by simp) f hf
    obtain ⟨gg, hgg, hggname, hggdty⟩ :=
      foldUnify_covers [t1, t2] [] out hu t2 (by simp) g hg
    have hndout := foldUnify_nodup [t1, t2] [] out (by simp) hu
    have heq : gf = gg := eq_of_name_eq_of_nodup out hndout gf gg hgf hgg
      (by rw [hgfname, hggname, hname])
    apply hdty
    rw [← hgfdty, heq, hggdty]

/-- Witness for C6 at `tblA` (FOPR as float32) versus `tblC` (FOPR as
int64). -/
theorem concat_type_conflict_witness :
    (∃ f ∈ tblA.schema.fields, ∃ g ∈ tblC.schema.fields,
      f.name = g.name ∧ f.dtype ≠ g.dtype) ∧
    concatTables [tblA, tblC] = .error .schemaConflictError := by
  refine ⟨by decide, ?_⟩
  exact concat_type_conflict tblA tblC (by decide)

end SmryPq
